import Mathlib

set_option maxRecDepth 40000

/-!
Verification of the RSPt file readers (`readfile.py`) from the
rspt2spectra repository: a shallow embedding of `hyb`, `self_energy`
and `pdos`, together with theorems settling the specification's
claims about them.

Files are embedded by their parsed contents: a numeric table (the
result of a successful `np.loadtxt`, hence rectangular in practice)
is a list of rows of rationals, and the log ("out") file is a list
of text lines.  Supplying or omitting an optional file argument is
modelled with `Option`.  Fatal failures (`sys.exit`, uncaught
exceptions) are modelled by an `Except` error result; input/output
level failures (a missing or unreadable file path) are outside the
embedding.
-/

/-- Modelled from the spec: the fixed unit-conversion constant `eV`
imported from `constants.py`, which is not part of `src/`.  The spec
fixes no numeric value, only that one fixed constant converts the
native simulation energy unit (Rydberg) to electron-volts; every
claim below is stated relative to `eV`, so no theorem depends on the
concrete (model) value chosen here. -/
def eV : ℚ := 27 / 2

/-- A complex value with rational components; `numpy` complex entries
are embedded as exact pairs (real part, imaginary part). -/
structure Cplx where
  re : ℚ
  im : ℚ
  deriving DecidableEq, Repr

instance : Zero Cplx := ⟨⟨0, 0⟩⟩

instance : Add Cplx := ⟨fun a b => ⟨a.re + b.re, a.im + b.im⟩⟩

deriving instance DecidableEq for Except

/-- A loaded numeric table: list of rows. -/
abbrev Table := List (List ℚ)

/-- Column `j` of a table (`t[:, j]`), as a total function; on a
rectangular table with more than `j` columns this is exactly the
`numpy` column. -/
def colD (t : Table) (j : ℕ) : List ℚ := t.map (fun r => r.getD j 0)

/-- Column access with the bounds check `numpy` performs: `t[:, n]`
raises `IndexError` when `n` is out of range. -/
def colA (t : Table) (n : ℕ) : Option (List ℚ) :=
  if t.all (fun r => decide (n < r.length)) then some (colD t n) else none

/-- The column slice `t[:, a:a+len]`; `numpy` slicing clamps, it never
raises. -/
def sliceCols (t : Table) (a len : ℕ) : Table :=
  t.map (fun r => (r.drop a).take len)

/-- `np.transpose` of a loaded (rectangular) table: the column count
is read off the first row, exactly the shape a 2-D `numpy` array has. -/
def transposeRect (t : Table) : Table :=
  match t with
  | [] => []
  | r :: _ => (List.range r.length).map (fun c => colD t c)

/-- The energy mesh `w = eV*re[:, 0]`. -/
def mesh (t : Table) : List ℚ := t.map (fun r => eV * r.getD 0 0)

/-- The diagonal function table
`eV*np.transpose(re[:,4:4+nc]) + (eV*np.transpose(im[:,4:4+nc]))*1j`:
row `i` is the complex-valued sequence of spin-orbital `i` over the
mesh. -/
def diagTable (re im : Table) (nc : ℕ) : List (List Cplx) :=
  List.zipWith (fun rr ir => List.zipWith (fun a b => (⟨eV * a, eV * b⟩ : Cplx)) rr ir)
    (transposeRect (sliceCols re 4 nc)) (transposeRect (sliceCols im 4 nc))

/-- `eV*np.loadtxt(file)[:, 1:]`: drop the mesh-index column of an
off-diagonal table and scale the data columns. -/
def scaleDrop (t : Table) : Table :=
  t.map (fun r => (r.drop 1).map (fun x => eV * x))

/-- Read the boolean mask at `(i, j)`. -/
def maskGet (m : List (List Bool)) (i j : ℕ) : Bool :=
  (m.getD i []).getD j false

/-- Pointwise update of a mutable 2-D-indexed array of sequences
(`h[i, j, :] = v`). -/
def upd3 (h : ℕ → ℕ → List Cplx) (i j : ℕ) (v : List Cplx) : ℕ → ℕ → List Cplx :=
  fun i' j' => if i' = i ∧ j' = j then v else h i' j'

/-- `h = np.zeros((nc, nc, nw))` followed by
`for i in range(nc): h[i, i, :] = d[i, :]`. -/
def diagFill (d : List (List Cplx)) (nc nw : ℕ) : ℕ → ℕ → List Cplx :=
  (List.range nc).foldl (fun h i => upd3 h i i (d.getD i []))
    (fun _ _ => List.replicate nw (0 : Cplx))

/-- Materialize the `nc × nc` array of sequences into nested lists,
the shape of the `numpy` array the reader returns. -/
def materialize (nc : ℕ) (f : ℕ → ℕ → List Cplx) : List (List (List Cplx)) :=
  (List.range nc).map (fun i => (List.range nc).map (fun j => f i j))

/-- `h[i, j, :] + (re[:, n] + im[:, n]*1j)`, elementwise. -/
def addRow (z : List Cplx) (cr ci : List ℚ) : List Cplx :=
  List.zipWith (fun c ab => c + ab) z (List.zipWith (fun a b => (⟨a, b⟩ : Cplx)) cr ci)

/-- The fatal failures of the readers.  `maskAbsent` stands for the
intended `'Mask in out-file is absent.'` termination; the theorems
below show the readers never actually produce it. -/
inductive RErr where
  | wrongInput
  | maskParse
  | maskReshape
  | maskAbsent
  | indexOOB
  | loadNone
  | unimplemented
  deriving DecidableEq, Repr

/-- The two result shapes of `hyb`: `(w, h_diagonal)` or `(w, h)`. -/
inductive HybOut where
  | diag (w : List ℚ) (t : List (List Cplx))
  | full (w : List ℚ) (h : List (List (List Cplx)))
  deriving DecidableEq, Repr

/-- Whitespace-splitting of a character list, dropping empty tokens
(the behaviour of Python's `str.split()`). -/
def wordsAux : List Char → List Char → List (List Char)
  | [], cur => if cur = [] then [] else [cur.reverse]
  | c :: cs, cur =>
    if c.isWhitespace then
      (if cur = [] then wordsAux cs [] else cur.reverse :: wordsAux cs [])
    else wordsAux cs (c :: cur)

/-- Whitespace tokens of a line. -/
def words (s : String) : List (List Char) := wordsAux s.data []

/-- Value of a nonempty all-digit token. -/
def digitsVal (cs : List Char) : Option ℕ :=
  if cs = [] then none
  else if cs.all (fun c => c.isDigit) then
    some (cs.foldl (fun a c => 10 * a + (c.toNat - 48)) 0)
  else none

/-- Integer parsing of one token, as `np.array(tokens, dtype=int)`
does per token; a non-numeric token makes the conversion raise,
modelled by `none`. -/
def tokInt (cs : List Char) : Option ℤ :=
  match cs with
  | '-' :: rest => (digitsVal rest).map (fun n => -(n : ℤ))
  | '+' :: rest => (digitsVal rest).map (fun n => (n : ℤ))
  | _ => (digitsVal cs).map (fun n => (n : ℤ))

/-- The literal marker phrase searched for in the out-file. -/
def search_phrase : List Char :=
  "dumpdata: Mask of the printed off-diagonal elements:".data

/-- `grep`'s per-line test: the marker phrase occurs as a substring
of the line (the phrase contains no regex metacharacters). -/
def lineHasMarker (l : String) : Bool :=
  l.data.tails.any (fun t => search_phrase.isPrefixOf t)

/-- Embedding of the shell pipeline
`grep -A 2*norb '<phrase>' out | head -(2*norb+1) | tail -(2*norb)`
followed by `string.split()`: the whitespace tokens of the `2*norb`
lines following the first marker line.  When the phrase is absent,
`grep` prints nothing and exits 1, but the pipeline's exit status is
`tail`'s (0), so `subprocess.check_output` raises no
`CalledProcessError` and the token list is simply empty — the
`except` handler in the source is unreachable (and would itself crash,
since `sys.error` does not exist).  The embedding assumes the file
has at least `2*norb` lines after the marker, which is the layout the
reader relies on; a shorter tail would also end in a fatal parse or
reshape failure. -/
def maskTokens (out : List String) (norb : ℕ) : List (List Char) :=
  match out.findIdx? lineHasMarker with
  | none => []
  | some k => (((out.drop (k + 1)).take (2 * norb)).map words).flatten

/-- `np.reshape(zs, (n, n))`'s row decomposition (used after the
size check `zs.length = n*n`). -/
def reshapeRows (zs : List ℤ) (n : ℕ) : List (List ℤ) :=
  (List.range n).map (fun r => (zs.drop (n * r)).take n)

/-- `np.array(tokens, dtype=int)`: every token must convert, otherwise
the conversion raises. -/
def parseAll : List (List Char) → Option (List ℤ)
  | [] => some []
  | t :: ts =>
    match tokInt t, parseAll ts with
    | some z, some zs => some (z :: zs)
    | _, _ => none

/-- The mask `hyb` actually uses (lines 59–71 of `readfile.py`):
parse the `2*norb` lines after the first marker occurrence as a
`(2*norb) × (2*norb)` integer matrix, compare with 1, and truncate to
the top-left `norb × norb` block when spin-polarization is off.
`np.array(tokens, dtype=int)` failing to convert a token is
`maskParse`; `reshape` failing on a wrong element count is
`maskReshape`. -/
def maskUsed (out : List String) (norb : ℕ) (spinpol : Bool) :
    Except RErr (List (List Bool)) :=
  match parseAll (maskTokens out norb) with
  | none => .error .maskParse
  | some zs =>
    if zs.length = 2 * norb * (2 * norb) then
      let m := (reshapeRows zs (2 * norb)).map (fun row => row.map (fun z => z == 1))
      .ok (if spinpol then m else (m.take norb).map (fun row => row.take norb))
    else .error .maskReshape

/-- The cell enumeration of the off-diagonal fill loops:
`for j in range(nc): for i in range(nc)` — column-major order. -/
def cellOrder (nc : ℕ) : List (ℕ × ℕ) :=
  ((List.range nc).map (fun j => (List.range nc).map (fun i => (i, j)))).flatten

/-- The off-diagonal fill loop (lines 78–83 of `readfile.py`), with
the loop state `(h, n)`: each true mask entry, visited in `cellOrder`,
adds the next unused off-diagonal column into its cell; a column
index past the table width is `numpy`'s fatal `IndexError`. -/
def fillLoop (mask : List (List Bool)) (reO imO : Table) :
    List (ℕ × ℕ) → (ℕ → ℕ → List Cplx) → ℕ →
    Except RErr ((ℕ → ℕ → List Cplx) × ℕ)
  | [], h, n => .ok (h, n)
  | c :: cs, h, n =>
    if maskGet mask c.1 c.2 then
      match colA reO n, colA imO n with
      | some cr, some ci =>
        fillLoop mask reO imO cs (upd3 h c.1 c.2 (addRow (h c.1 c.2) cr ci)) (n + 1)
      | _, _ => .error .indexOOB
    else fillLoop mask reO imO cs h n

/-- The hybridization reader `hyb` (lines 21–101 of `readfile.py`). -/
def hyb (file_re file_im : Table) (norb : ℕ) (spinpol : Bool)
    (file_re_off : Option Table) (file_im_off : Option Table)
    (outfile : Option (List String)) (return_as_full_matrix : Bool) :
    Except RErr HybOut :=
  let nc := if spinpol then 2 * norb else norb
  let w := mesh file_re
  let h_diagonal := diagTable file_re file_im nc
  match file_re_off, file_im_off, outfile with
  | none, none, none =>
    if return_as_full_matrix then
      .ok (.full w (materialize nc (diagFill h_diagonal nc w.length)))
    else
      .ok (.diag w h_diagonal)
  | some rT, some iT, some out =>
    let re := scaleDrop rT
    let im := scaleDrop iT
    match maskUsed out norb spinpol with
    | .error e => .error e
    | .ok mask =>
      match fillLoop mask re im (cellOrder nc) (diagFill h_diagonal nc w.length) 0 with
      | .error e => .error e
      | .ok (h, _) => .ok (.full w (materialize nc h))
  | _, _, _ => .error .wrongInput

/-- The self-energy reader `self_energy` (lines 104–150 of
`readfile.py`).  The function has no branch for absent off-diagonal
files: `np.loadtxt` is applied to the arguments unconditionally, and
`np.loadtxt(None)` raises (`loadNone`).  When both files are present,
execution reaches the unconditional `sys.exit('Implementation not
complete...')` on line 135; everything after that line (including the
`return` on line 150) is dead code and therefore contributes nothing
to the embedding. -/
def self_energy (file_re file_im : Table) (spinpol : Bool)
    (file_re_off : Option Table) (file_im_off : Option Table) :
    Except RErr (List ℚ × List (List Cplx) × List (List (List Cplx))) :=
  let w := mesh file_re
  let sig_diagonal :=
    List.zipWith (fun rr ir => List.zipWith (fun a b => (⟨eV * a, eV * b⟩ : Cplx)) rr ir)
      (transposeRect (file_re.map (fun r => r.drop 4)))
      (transposeRect (file_im.map (fun r => r.drop 4)))
  let nc := sig_diagonal.length
  let norb := if spinpol then nc / 2 else nc
  match file_re_off, file_im_off with
  | none, _ => .error .loadNone
  | some _, none => .error .loadNone
  | some _, some _ =>
    let _ := w
    let _ := norb
    .error .unimplemented

/-- The PDOS reader `pdos` (lines 153–168 of `readfile.py`). -/
def pdos (tmp : Table) (norb : ℕ) (spinpol : Bool) :
    List ℚ × List (List ℚ) :=
  let nc := if spinpol then 2 * norb else norb
  let w := mesh tmp
  let k := if spinpol then 7 else 2
  let p := (List.range nc).map (fun i => tmp.map (fun r => r.getD (k + i) 0 / eV))
  (w, p)

/-- Written from the words of claim C3 (not from the source), for
comparison with `maskUsed`: locate the first occurrence of the marker
phrase and parse the `nc` following lines of 0/1 tokens into an
`nc × nc` boolean matrix, with `nc = 2*norb` if spin-polarized else
`norb`; when spin-polarization is disabled use the top-left
`norb × norb` block. -/
def maskSpec (out : List String) (norb : ℕ) (spinpol : Bool) :
    Except RErr (List (List Bool)) :=
  let nc := if spinpol then 2 * norb else norb
  let toks :=
    match out.findIdx? lineHasMarker with
    | none => ([] : List (List Char))
    | some k => (((out.drop (k + 1)).take nc).map words).flatten
  match parseAll toks with
  | none => .error .maskParse
  | some zs =>
    if zs.length = nc * nc then
      let m := (reshapeRows zs nc).map (fun row => row.map (fun z => z == 1))
      .ok (if spinpol then m else (m.take norb).map (fun row => row.take norb))
    else .error .maskReshape

/-- Number of true mask entries encountered strictly before cell
`(i, j)` in the column-major scan. -/
def truesBefore (m : List (List Bool)) (nc i j : ℕ) : ℕ :=
  (((cellOrder nc).takeWhile (fun c => c ≠ (i, j))).countP
    (fun c => maskGet m c.1 c.2))

/-- Total number of true entries of the (`nc × nc`) mask, counted over
the column-major scan. -/
def maskTrues (m : List (List Bool)) (nc : ℕ) : ℕ :=
  (cellOrder nc).countP (fun c => maskGet m c.1 c.2)

/-! ### Basic index lemmas -/

theorem getD_map_range {α : Type} (f : ℕ → α) (n i : ℕ) (d : α) :
    ((List.range n).map f).getD i d = if i < n then f i else d := by
  by_cases h : i < n
  · simp [List.getD_eq_getElem?_getD, List.getElem?_map, List.getElem?_range h, h]
  · simp only [List.getD_eq_getElem?_getD]
    rw [List.getElem?_eq_none (by simpa using Nat.le_of_not_lt h)]
    simp [h]

theorem getD_take_of_lt {α : Type} (l : List α) (k i : ℕ) (d : α) (h : i < k) :
    (l.take k).getD i d = l.getD i d := by
  simp [List.getD_eq_getElem?_getD, List.getElem?_take_of_lt h]

theorem getD_drop {α : Type} (l : List α) (k i : ℕ) (d : α) :
    (l.drop k).getD i d = l.getD (k + i) d := by
  simp [List.getD_eq_getElem?_getD, List.getElem?_drop]

theorem colA_eq_colD (t : Table) (n : ℕ) (l : List ℚ) (h : colA t n = some l) :
    l = colD t n := by
  unfold colA at h
  split at h
  · exact (Option.some.injEq _ _ ▸ h).symm
  · exact absurd h (by simp)

theorem materialize_getD (nc : ℕ) (f : ℕ → ℕ → List Cplx) (i j : ℕ)
    (hi : i < nc) (hj : j < nc) :
    ((materialize nc f).getD i []).getD j [] = f i j := by
  simp [materialize, getD_map_range, hi, hj]

theorem foldl_upd_diag (d : List (List Cplx)) (L : List ℕ)
    (base : ℕ → ℕ → List Cplx) (i j : ℕ) :
    (L.foldl (fun h i => upd3 h i i (d.getD i [])) base) i j =
      if i = j ∧ i ∈ L then d.getD i [] else base i j := by
  induction L generalizing base with
  | nil => simp
  | cons a t ih =>
    rw [List.foldl_cons, ih]
    by_cases hij : i = j
    · subst hij
      by_cases hit : i ∈ t
      · simp [hit, upd3]
      · by_cases hia : i = a
        · subst hia
          simp [hit, upd3]
        · simp [hit, upd3, hia]
    · simp only [hij, false_and, if_false, upd3]
      have : ¬(i = a ∧ j = a) := by
        rintro ⟨rfl, rfl⟩; exact hij rfl
      simp [this]

theorem diagFill_eq (d : List (List Cplx)) (nc nw i j : ℕ) :
    diagFill d nc nw i j =
      if i = j ∧ i < nc then d.getD i [] else List.replicate nw (0 : Cplx) := by
  unfold diagFill
  rw [foldl_upd_diag]
  simp [List.mem_range]

/-! ### C1 and C2: the self-energy reader -/

/-- C1 (code evidence): a call to `self_energy` that does not supply the
off-diagonal input files never returns the mesh and diagonal table: the
unconditional `np.loadtxt(file_re_off)` / `np.loadtxt(file_im_off)` on
lines 127–128 is applied to `None` and raises, so the claimed
diagonal-only return (and in fact any return) is unreachable. -/
theorem self_energy_diag_only_never_returns (file_re file_im : Table) (spinpol : Bool) :
    self_energy file_re file_im spinpol none none = .error .loadNone := rfl

/-- C2: whenever both off-diagonal files are supplied, `self_energy`
reaches the unconditional `sys.exit('Implementation not complete...')`
on line 135 and fails with the unimplemented-feature error, for every
possible content of the four tables and both spin settings; it never
returns a full self-energy matrix. -/
theorem self_energy_offdiag_unimplemented (file_re file_im : Table) (spinpol : Bool)
    (reOff imOff : Table) :
    self_energy file_re file_im spinpol (some reOff) (some imOff) =
      .error .unimplemented := rfl

/-! ### C8: the PDOS reader -/

/-- C8: for every PDOS input, `pdos` returns the mesh `eV * column 0`
and, for each spin-orbital `i < nc`, the density `column (k+i) / eV`
with `k = 7` if spin-polarized else `2`; mesh and density scale in
opposite directions.  In particular `spinpol = true`, `norb = 1`
(`nc = 2`) extracts columns 7 and 8, each divided by `eV`. -/
theorem pdos_columns (tmp : Table) (norb : ℕ) (spinpol : Bool) :
    (pdos tmp norb spinpol).1 = (colD tmp 0).map (fun x => eV * x) ∧
    (pdos tmp norb spinpol).2.length = (if spinpol then 2 * norb else norb) ∧
    (∀ i, (pdos tmp norb spinpol).2.getD i [] =
      if i < (if spinpol then 2 * norb else norb) then
        (colD tmp ((if spinpol then 7 else 2) + i)).map (fun x => x / eV)
      else []) ∧
    (pdos tmp 1 true).2 =
      [(colD tmp 7).map (fun x => x / eV), (colD tmp 8).map (fun x => x / eV)] := by
  refine ⟨?_, ?_, ?_, ?_⟩
  · simp [pdos, mesh, colD, List.map_map, Function.comp_def]
  · simp [pdos]
  · intro i
    simp only [pdos, getD_map_range]
    split <;> simp [colD, List.map_map, Function.comp_def]
  · simp [pdos, List.range_succ, colD, List.map_map, Function.comp_def]

/-! ### C3: mask recovery -/

/-- A log file for `norb = 1` without spin polarization: marker line
followed by the full `2×2` spin-orbital mask RSPt prints. -/
def exOutNoSpin : List String :=
  ["dumpdata: Mask of the printed off-diagonal elements:", "0 1", "1 0"]

/-- C3 counterexample: with `norb = 1`, `spinpol = false` the claim
prescribes parsing `nc = norb = 1` following line into a `1×1` matrix;
on `exOutNoSpin` that parse fails on a size mismatch (the line has two
tokens), while the recovery `hyb` actually performs succeeds and uses
the mask `[[false]]` — so the claim, as stated, is false. -/
theorem mask_recovery_counterexample :
    maskSpec exOutNoSpin 1 false = .error .maskReshape ∧
    maskUsed exOutNoSpin 1 false = .ok [[false]] ∧
    maskSpec exOutNoSpin 1 false ≠ maskUsed exOutNoSpin 1 false := by
  refine ⟨by decide, by decide, by decide⟩

/-- C3 amended: the mask is recovered by locating the first occurrence
of the marker phrase and parsing the `2*norb` following lines of 0/1
tokens into a `2*norb × 2*norb` boolean matrix regardless of
spin-polarization (so the claim's `nc` lines / `nc×nc` reading is
exact precisely when spin-polarized, `nc = 2*norb`); when
spin-polarization is disabled the mask used is the top-left
`norb × norb` block of that matrix. -/
theorem mask_recovery_amended (out : List String) (norb : ℕ) :
    maskUsed out norb true = maskSpec out norb true ∧
    maskUsed out norb false =
      (maskUsed out norb true).map
        (fun m => (m.take norb).map (fun row => row.take norb)) := by
  constructor
  · rfl
  · unfold maskUsed
    cases h : parseAll (maskTokens out norb) with
    | none => rfl
    | some zs =>
      by_cases hl : zs.length = 2 * norb * (2 * norb)
      · simp [hl, Except.map]
      · simp [hl, Except.map]

/-! ### C7: absent marker phrase -/

theorem findIdx?_none_of_all_false {l : List String} (h : ∀ x ∈ l, lineHasMarker x = false) :
    l.findIdx? lineHasMarker = none := by
  rw [List.findIdx?_eq_none_iff]
  intro x hx
  simpa using h x hx

/-- C7 (code evidence): when the marker phrase occurs nowhere in the out
file, `hyb`'s off-diagonal path terminates fatally — but through the
`reshape` size mismatch on the empty `grep` output, not through the
designed mask-not-found error: the `except CalledProcessError` handler
is dead (the pipeline's exit status is `tail`'s, which is 0) and its
body calls the nonexistent `sys.error`, so the mask-not-found message
can never be produced. -/
theorem hyb_marker_absent (file_re file_im : Table) (norb : ℕ) (spinpol : Bool)
    (reOff imOff : Table) (out : List String) (rf : Bool)
    (hnorb : 1 ≤ norb) (habsent : ∀ l ∈ out, lineHasMarker l = false) :
    hyb file_re file_im norb spinpol (some reOff) (some imOff) (some out) rf =
      .error .maskReshape ∧
    hyb file_re file_im norb spinpol (some reOff) (some imOff) (some out) rf ≠
      .error .maskAbsent := by
  have htok : maskTokens out norb = [] := by
    unfold maskTokens
    rw [findIdx?_none_of_all_false habsent]
  have hz : 2 * norb * (2 * norb) ≠ 0 := by positivity
  have hmask : maskUsed out norb spinpol = .error .maskReshape := by
    unfold maskUsed
    rw [htok]
    simp [parseAll, Ne.symm hz]
  have h1 : hyb file_re file_im norb spinpol (some reOff) (some imOff) (some out) rf =
      .error .maskReshape := by
    simp only [hyb, hmask]
  exact ⟨h1, by rw [h1]; simp⟩

/-- C7 witness. -/
theorem hyb_marker_absent_witness :
    (1 ≤ 1 ∧ ∀ l ∈ ["RSPt run log", "no mask printed"], lineHasMarker l = false) ∧
    hyb [[1]] [[1]] 1 false (some [[1]]) (some [[1]])
      (some ["RSPt run log", "no mask printed"]) false = .error .maskReshape :=
  ⟨⟨le_refl 1, by decide⟩,
    (hyb_marker_absent [[1]] [[1]] 1 false [[1]] [[1]]
      ["RSPt run log", "no mask printed"] false (le_refl 1) (by decide)).1⟩

/-! ### C5: argument-set validation -/

/-- How many of the three optional inputs were supplied. -/
def numSupplied (a b : Option Table) (c : Option (List String)) : ℕ :=
  (if a.isSome then 1 else 0) + (if b.isSome then 1 else 0) + (if c.isSome then 1 else 0)

theorem fillLoop_error_eq (mask : List (List Bool)) (reO imO : Table)
    (cs : List (ℕ × ℕ)) (h : ℕ → ℕ → List Cplx) (n : ℕ) (e : RErr)
    (he : fillLoop mask reO imO cs h n = .error e) : e = .indexOOB := by
  induction cs generalizing h n with
  | nil => simp [fillLoop] at he
  | cons c t ih =>
    simp only [fillLoop] at he
    split at he
    · split at he
      · exact ih _ _ he
      · exact (Except.error.inj he).symm
    · exact ih _ _ he

theorem maskUsed_error_eq (out : List String) (norb : ℕ) (spinpol : Bool) (e : RErr)
    (he : maskUsed out norb spinpol = .error e) :
    e = .maskParse ∨ e = .maskReshape := by
  unfold maskUsed at he
  split at he
  · exact Or.inl (Except.error.inj he).symm
  · split at he
    · simp at he
    · exact Or.inr (Except.error.inj he).symm

/-- C5: supplying exactly one or two of the three optional inputs
{off-diagonal real file, off-diagonal imaginary file, log file} makes
`hyb` fail with the malformed-arguments error (`sys.exit('Wrong input
parameters.')`); supplying none or all three never produces that
error. -/
theorem hyb_argument_check (file_re file_im : Table) (norb : ℕ) (spinpol : Bool)
    (reOff imOff : Option Table) (out : Option (List String)) (rf : Bool) :
    (numSupplied reOff imOff out = 1 ∨ numSupplied reOff imOff out = 2 →
      hyb file_re file_im norb spinpol reOff imOff out rf = .error .wrongInput) ∧
    (numSupplied reOff imOff out = 0 ∨ numSupplied reOff imOff out = 3 →
      hyb file_re file_im norb spinpol reOff imOff out rf ≠ .error .wrongInput) := by
  rcases reOff with _ | ro <;> rcases imOff with _ | io <;> rcases out with _ | o
  · -- none, none, none: the diagonal-only branch always returns a value
    refine ⟨fun h => ?_, fun _ hcon => ?_⟩
    · rcases h with h | h <;> simp [numSupplied] at h
    · cases rf <;> simp [hyb] at hcon
  · exact ⟨fun _ => rfl, fun h => by rcases h with h | h <;> simp [numSupplied] at h⟩
  · exact ⟨fun _ => rfl, fun h => by rcases h with h | h <;> simp [numSupplied] at h⟩
  · exact ⟨fun _ => rfl, fun h => by rcases h with h | h <;> simp [numSupplied] at h⟩
  · exact ⟨fun _ => rfl, fun h => by rcases h with h | h <;> simp [numSupplied] at h⟩
  · exact ⟨fun _ => rfl, fun h => by rcases h with h | h <;> simp [numSupplied] at h⟩
  · exact ⟨fun _ => rfl, fun h => by rcases h with h | h <;> simp [numSupplied] at h⟩
  · -- some, some, some: the full path can only fail with mask or index errors
    refine ⟨fun h => ?_, fun _ hcon => ?_⟩
    · rcases h with h | h <;> simp [numSupplied] at h
    · simp only [hyb] at hcon
      cases hmk : maskUsed o norb spinpol with
      | error e =>
        rw [hmk] at hcon
        rcases maskUsed_error_eq o norb spinpol e hmk with rfl | rfl <;> simp at hcon
      | ok m =>
        simp only [hmk] at hcon
        cases hfl : fillLoop m (scaleDrop ro) (scaleDrop io)
            (cellOrder (if spinpol then 2 * norb else norb))
            (diagFill (diagTable file_re file_im (if spinpol then 2 * norb else norb))
              (if spinpol then 2 * norb else norb) (mesh file_re).length) 0 with
        | error e =>
          have := fillLoop_error_eq _ _ _ _ _ _ _ hfl
          subst this
          simp only [hfl] at hcon
          simp at hcon
        | ok p =>
          simp only [hfl] at hcon
          cases p
          simp at hcon

/-- C5 witness: one supplied input out of three triggers the
malformed-arguments failure. -/
theorem hyb_argument_check_witness :
    numSupplied (some [[1]]) none none = 1 ∧
    hyb [[1]] [[1]] 1 false (some [[1]]) none none false = .error .wrongInput :=
  ⟨by decide,
    (hyb_argument_check [[1]] [[1]] 1 false (some [[1]]) none none false).1
      (Or.inl (by decide))⟩

/-! ### C6 and C9: the diagonal hybridization path -/

theorem getD_map_getD (t : Table) (c m : ℕ) :
    (t.map (fun r => r.getD c 0)).getD m 0 = (t.getD m []).getD c 0 := by
  simp only [List.getD_eq_getElem?_getD, List.getElem?_map]
  cases t[m]? <;> simp

theorem zipWith_getD_of_lt {α β γ : Type} (g : α → β → γ) (as : List α) (bs : List β)
    (i : ℕ) (da : α) (db : β) (dg : γ) (ha : i < as.length) (hb : i < bs.length) :
    (List.zipWith g as bs).getD i dg = g (as.getD i da) (bs.getD i db) := by
  simp only [List.getD_eq_getElem?_getD]
  rw [List.getElem?_zipWith, List.getElem?_eq_getElem ha, List.getElem?_eq_getElem hb]
  simp [List.getElem?_eq_getElem, ha, hb]

theorem mesh_eq (t : Table) : mesh t = (colD t 0).map (fun x => eV * x) := by
  simp [mesh, colD, List.map_map, Function.comp_def]

theorem sliceCols_cons (r : List ℚ) (rest : Table) (a len : ℕ) :
    sliceCols (r :: rest) a len = ((r.drop a).take len) :: sliceCols rest a len := rfl

theorem transposeRect_cons_length (r : List ℚ) (rest : Table) :
    (transposeRect (r :: rest)).length = r.length := by
  simp [transposeRect]

theorem transposeRect_getD (r : List ℚ) (rest : Table) (c : ℕ) (hc : c < r.length) :
    (transposeRect (r :: rest)).getD c [] = colD (r :: rest) c := by
  show (((List.range r.length).map (fun c => colD (r :: rest) c)).getD c []) = _
  rw [getD_map_range]
  simp [hc]

theorem diagTable_length (r0 s0 : List ℚ) (re' im' : Table) (nc : ℕ)
    (h0 : 4 + nc ≤ r0.length) (h0' : 4 + nc ≤ s0.length) :
    (diagTable (r0 :: re') (s0 :: im') nc).length = nc := by
  unfold diagTable
  rw [List.length_zipWith, sliceCols_cons, sliceCols_cons,
    transposeRect_cons_length, transposeRect_cons_length]
  simp only [List.length_take, List.length_drop]
  omega

theorem diagTable_length_le (re im : Table) (nc : ℕ) :
    (diagTable re im nc).length ≤ nc := by
  unfold diagTable
  rw [List.length_zipWith]
  rcases re with _ | ⟨r0, re'⟩
  · simp [sliceCols, transposeRect]
  · rcases im with _ | ⟨s0, im'⟩
    · simp [sliceCols, transposeRect]
    · rw [sliceCols_cons, sliceCols_cons, transposeRect_cons_length,
        transposeRect_cons_length]
      simp only [List.length_take, List.length_drop]
      omega

theorem diagTable_getD (re im : Table) (nc i m : ℕ) (hi : i < nc)
    (hmre : m < re.length) (hmim : m < im.length)
    (hwre : ∀ r ∈ re, 4 + nc ≤ r.length) (hwim : ∀ r ∈ im, 4 + nc ≤ r.length) :
    ((diagTable re im nc).getD i []).getD m 0 =
      (⟨eV * ((re.getD m []).getD (4 + i) 0),
        eV * ((im.getD m []).getD (4 + i) 0)⟩ : Cplx) := by
  rcases re with _ | ⟨r0, re'⟩
  · simp at hmre
  rcases im with _ | ⟨s0, im'⟩
  · simp at hmim
  have h0 : 4 + nc ≤ r0.length := hwre r0 (by simp)
  have h0' : 4 + nc ≤ s0.length := hwim s0 (by simp)
  have wr : ((r0.drop 4).take nc).length = nc := by
    simp only [List.length_take, List.length_drop]; omega
  have ws : ((s0.drop 4).take nc).length = nc := by
    simp only [List.length_take, List.length_drop]; omega
  unfold diagTable
  rw [sliceCols_cons, sliceCols_cons]
  rw [zipWith_getD_of_lt _ _ _ i [] [] []
    (by rw [transposeRect_cons_length, wr]; exact hi)
    (by rw [transposeRect_cons_length, ws]; exact hi)]
  rw [transposeRect_getD _ _ i (by rw [wr]; exact hi),
    transposeRect_getD _ _ i (by rw [ws]; exact hi)]
  rw [← sliceCols_cons, ← sliceCols_cons]
  unfold colD
  rw [zipWith_getD_of_lt _ _ _ m 0 0 0
    (by simpa [sliceCols] using hmre) (by simpa [sliceCols] using hmim)]
  rw [getD_map_getD, getD_map_getD]
  unfold sliceCols
  have hre : (((r0 :: re').map (fun r => (r.drop 4).take nc)).getD m []).getD i 0 =
      ((r0 :: re').getD m []).getD (4 + i) 0 := by
    simp only [List.getD_eq_getElem?_getD, List.getElem?_map]
    rw [List.getElem?_eq_getElem hmre]
    simp only [Option.map_some', Option.getD_some]
    rw [List.getElem?_take_of_lt hi, List.getElem?_drop]
  have him : (((s0 :: im').map (fun r => (r.drop 4).take nc)).getD m []).getD i 0 =
      ((s0 :: im').getD m []).getD (4 + i) 0 := by
    simp only [List.getD_eq_getElem?_getD, List.getElem?_map]
    rw [List.getElem?_eq_getElem hmim]
    simp only [Option.map_some', Option.getD_some]
    rw [List.getElem?_take_of_lt hi, List.getElem?_drop]
  rw [hre, him]

/-- C6: on a valid diagonal hybridization input (rows at least `4+nc`
wide, matching row counts), the diagonal-only call returns the mesh
`eV * column 0` (one point per input row) and a table of exactly `nc`
rows whose entry for spin-orbital `i` at mesh point `m` is
`eV*(re[m, 4+i] + i*im[m, 4+i])`. -/
theorem hyb_diag_values (file_re file_im : Table) (norb : ℕ) (spinpol : Bool)
    (nc : ℕ) (w : List ℚ) (t : List (List Cplx))
    (hnc : nc = if spinpol then 2 * norb else norb)
    (hwre : ∀ r ∈ file_re, 4 + nc ≤ r.length)
    (hwim : ∀ r ∈ file_im, 4 + nc ≤ r.length)
    (hlen : file_im.length = file_re.length)
    (hne : file_re ≠ [])
    (hcall : hyb file_re file_im norb spinpol none none none false = .ok (.diag w t)) :
    w = (colD file_re 0).map (fun x => eV * x) ∧
    w.length = file_re.length ∧
    t.length = nc ∧
    (∀ i < nc, ∀ m < file_re.length,
      (t.getD i []).getD m 0 =
        (⟨eV * ((file_re.getD m []).getD (4 + i) 0),
          eV * ((file_im.getD m []).getD (4 + i) 0)⟩ : Cplx)) := by
  have hred : hyb file_re file_im norb spinpol none none none false =
      .ok (.diag (mesh file_re)
        (diagTable file_re file_im (if spinpol then 2 * norb else norb))) := rfl
  have hw : w = mesh file_re ∧ t = diagTable file_re file_im nc := by
    rw [hred] at hcall
    simp only [Except.ok.injEq, HybOut.diag.injEq] at hcall
    rw [← hnc] at hcall
    exact ⟨hcall.1.symm, hcall.2.symm⟩
  obtain ⟨rfl, rfl⟩ := hw
  refine ⟨mesh_eq file_re, by simp [mesh], ?_, ?_⟩
  · rcases file_re with _ | ⟨r0, re'⟩
    · exact absurd rfl hne
    · rcases file_im with _ | ⟨s0, im'⟩
      · simp at hlen
      · exact diagTable_length r0 s0 re' im' nc (hwre r0 (by simp)) (hwim s0 (by simp))
  · intro i hi m hm
    exact diagTable_getD file_re file_im nc i m hi hm (hlen ▸ hm) hwre hwim

/-- The two-row diagonal hybridization table of the spec's scenario
(`norb = 2`, `spinpol = false`), used for both real and imaginary
parts. -/
def exT : Table := [[-5, 0, 0, 0, 1, 2], [-4, 0, 0, 0, 3/2, 5/2]]

/-- C6 witness: the spec's scenario, with the concrete mesh
`eV*[-5, -4]` and entries `eV*(1+1j)`, `eV*(2+2j)` at mesh point 0. -/
theorem hyb_diag_values_witness :
    (mesh exT = (colD exT 0).map (fun x => eV * x) ∧
     (mesh exT).length = exT.length ∧
     (diagTable exT exT 2).length = 2 ∧
     (∀ i < 2, ∀ m < exT.length,
       ((diagTable exT exT 2).getD i []).getD m 0 =
         (⟨eV * ((exT.getD m []).getD (4 + i) 0),
           eV * ((exT.getD m []).getD (4 + i) 0)⟩ : Cplx))) ∧
    mesh exT = [eV * (-5), eV * (-4)] ∧
    ((diagTable exT exT 2).getD 0 []).getD 0 0 = ⟨eV * 1, eV * 1⟩ ∧
    ((diagTable exT exT 2).getD 1 []).getD 0 0 = ⟨eV * 2, eV * 2⟩ :=
  ⟨hyb_diag_values exT exT 2 false 2 (mesh exT) (diagTable exT exT 2) rfl
      (by decide) (by decide) rfl (by decide) rfl,
    by with_unfolding_all decide, by with_unfolding_all decide,
    by with_unfolding_all decide⟩

/-- C9: for the same diagonal-only inputs, the diagonal of the
full-matrix form equals the diagonal-only table, at every spin-orbital
index (and the meshes coincide). -/
theorem hyb_roundtrip (file_re file_im : Table) (norb : ℕ) (spinpol : Bool)
    (w w' : List ℚ) (hm : List (List (List Cplx))) (d : List (List Cplx))
    (hfull : hyb file_re file_im norb spinpol none none none true = .ok (.full w hm))
    (hdiag : hyb file_re file_im norb spinpol none none none false = .ok (.diag w' d)) :
    w = w' ∧ ∀ i, (hm.getD i []).getD i [] = d.getD i [] := by
  have hredf : hyb file_re file_im norb spinpol none none none true =
      .ok (.full (mesh file_re)
        (materialize (if spinpol then 2 * norb else norb)
          (diagFill (diagTable file_re file_im (if spinpol then 2 * norb else norb))
            (if spinpol then 2 * norb else norb) (mesh file_re).length))) := rfl
  have hredd : hyb file_re file_im norb spinpol none none none false =
      .ok (.diag (mesh file_re)
        (diagTable file_re file_im (if spinpol then 2 * norb else norb))) := rfl
  rw [hredf] at hfull
  rw [hredd] at hdiag
  simp only [Except.ok.injEq, HybOut.full.injEq] at hfull
  simp only [Except.ok.injEq, HybOut.diag.injEq] at hdiag
  obtain ⟨hw, hh⟩ := hfull
  obtain ⟨hw', hd⟩ := hdiag
  subst hw hh hw' hd
  refine ⟨rfl, fun i => ?_⟩
  by_cases hi : i < (if spinpol then 2 * norb else norb)
  · rw [materialize_getD _ _ i i hi hi, diagFill_eq]
    simp [hi]
  · have h1 : ((materialize (if spinpol then 2 * norb else norb)
        (diagFill (diagTable file_re file_im (if spinpol then 2 * norb else norb))
          (if spinpol then 2 * norb else norb) (mesh file_re).length)).getD i []) = [] := by
      unfold materialize
      rw [getD_map_range]
      simp [hi]
    have h2 : (diagTable file_re file_im (if spinpol then 2 * norb else norb)).getD i [] = [] := by
      apply List.getD_eq_default
      calc (diagTable file_re file_im _).length ≤ _ := diagTable_length_le _ _ _
        _ ≤ i := Nat.le_of_not_lt hi
    rw [h1, h2]
    simp

/-- C9 witness. -/
theorem hyb_roundtrip_witness :
    ∃ w hm w' d,
      hyb exT exT 2 false none none none true = .ok (.full w hm) ∧
      hyb exT exT 2 false none none none false = .ok (.diag w' d) ∧
      (w = w' ∧ ∀ i, (hm.getD i []).getD i [] = d.getD i []) :=
  ⟨mesh exT,
    materialize 2 (diagFill (diagTable exT exT 2) 2 (mesh exT).length),
    mesh exT, diagTable exT exT 2, rfl, rfl,
    hyb_roundtrip exT exT 2 false _ _ _ _ rfl rfl⟩

/-! ### C4 and C10: the off-diagonal fill loop -/

theorem fillLoop_append (mask : List (List Bool)) (reO imO : Table)
    (as bs : List (ℕ × ℕ)) (h : ℕ → ℕ → List Cplx) (n : ℕ) :
    fillLoop mask reO imO (as ++ bs) h n =
      match fillLoop mask reO imO as h n with
      | .ok (h', n') => fillLoop mask reO imO bs h' n'
      | .error e => .error e := by
  induction as generalizing h n with
  | nil => simp [fillLoop]
  | cons c t ih =>
    simp only [List.cons_append, fillLoop]
    by_cases hm : maskGet mask c.1 c.2 = true
    · rw [if_pos hm, if_pos hm]
      cases hcr : colA reO n with
      | none => cases hci : colA imO n <;> rfl
      | some cr =>
        cases hci : colA imO n with
        | none => rfl
        | some ci => exact ih _ _
    · rw [if_neg hm, if_neg hm]
      exact ih _ _

theorem fillLoop_count (mask : List (List Bool)) (reO imO : Table) :
    ∀ (cs : List (ℕ × ℕ)) (h : ℕ → ℕ → List Cplx) (n : ℕ)
      (h' : ℕ → ℕ → List Cplx) (n' : ℕ),
      fillLoop mask reO imO cs h n = .ok (h', n') →
      n' = n + cs.countP (fun c => maskGet mask c.1 c.2) := by
  intro cs
  induction cs with
  | nil =>
    intro h n h' n' hok
    simp only [fillLoop, Except.ok.injEq, Prod.mk.injEq] at hok
    simp [← hok.2]
  | cons c t ih =>
    intro h n h' n' hok
    simp only [fillLoop] at hok
    rw [List.countP_cons]
    by_cases hm : maskGet mask c.1 c.2 = true
    · rw [if_pos hm] at hok
      cases hcr : colA reO n with
      | none =>
        rw [hcr] at hok
        cases hci : colA imO n <;> rw [hci] at hok <;> simp at hok
      | some cr =>
        cases hci : colA imO n with
        | none => rw [hcr, hci] at hok; simp at hok
        | some ci =>
          rw [hcr, hci] at hok
          have := ih _ _ _ _ hok
          simp [this, hm]
          omega
    · rw [if_neg hm] at hok
      have := ih _ _ _ _ hok
      simp only [decide_eq_true_eq] at *
      rw [this]
      simp [hm]

theorem fillLoop_untouched (mask : List (List Bool)) (reO imO : Table) (i j : ℕ) :
    ∀ (cs : List (ℕ × ℕ)) (h : ℕ → ℕ → List Cplx) (n : ℕ)
      (h' : ℕ → ℕ → List Cplx) (n' : ℕ),
      fillLoop mask reO imO cs h n = .ok (h', n') →
      ((i, j) ∉ cs ∨ maskGet mask i j = false) →
      h' i j = h i j := by
  intro cs
  induction cs with
  | nil =>
    intro h n h' n' hok _
    simp only [fillLoop, Except.ok.injEq, Prod.mk.injEq] at hok
    rw [← hok.1]
  | cons c t ih =>
    intro h n h' n' hok hnot
    have hnt : (i, j) ∉ t ∨ maskGet mask i j = false := by
      rcases hnot with hn | hf
      · exact Or.inl (fun ht => hn (List.mem_cons_of_mem c ht))
      · exact Or.inr hf
    simp only [fillLoop] at hok
    by_cases hm : maskGet mask c.1 c.2 = true
    · rw [if_pos hm] at hok
      cases hcr : colA reO n with
      | none =>
        rw [hcr] at hok
        cases hci : colA imO n <;> rw [hci] at hok <;> simp at hok
      | some cr =>
        cases hci : colA imO n with
        | none => rw [hcr, hci] at hok; simp at hok
        | some ci =>
          rw [hcr, hci] at hok
          rw [ih _ _ _ _ hok hnt]
          have hne : ¬(i = c.1 ∧ j = c.2) := by
            rintro ⟨rfl, rfl⟩
            rcases hnot with hn | hf
            · exact hn (by simp)
            · rw [hf] at hm; cases hm
          simp [upd3, hne]
    · rw [if_neg hm] at hok
      exact ih _ _ _ _ hok hnt

theorem fillLoop_cell (mask : List (List Bool)) (reO imO : Table) (i j : ℕ)
    (A B : List (ℕ × ℕ)) (h : ℕ → ℕ → List Cplx) (n : ℕ)
    (h' : ℕ → ℕ → List Cplx) (n' : ℕ)
    (hA : (i, j) ∉ A) (hB : (i, j) ∉ B) (hm : maskGet mask i j = true)
    (hok : fillLoop mask reO imO (A ++ (i, j) :: B) h n = .ok (h', n')) :
    h' i j = addRow (h i j)
      (colD reO (n + A.countP (fun c => maskGet mask c.1 c.2)))
      (colD imO (n + A.countP (fun c => maskGet mask c.1 c.2))) := by
  rw [fillLoop_append] at hok
  cases hA' : fillLoop mask reO imO A h n with
  | error e => rw [hA'] at hok; simp at hok
  | ok p =>
    obtain ⟨h1, n1⟩ := p
    rw [hA'] at hok
    have hn1 : n1 = n + A.countP (fun c => maskGet mask c.1 c.2) :=
      fillLoop_count mask reO imO A h n h1 n1 hA'
    simp only [fillLoop] at hok
    rw [if_pos hm] at hok
    cases hcr : colA reO n1 with
    | none =>
      rw [hcr] at hok
      cases hci : colA imO n1 <;> rw [hci] at hok <;> simp at hok
    | some cr =>
      cases hci : colA imO n1 with
      | none => rw [hcr, hci] at hok; simp at hok
      | some ci =>
        rw [hcr, hci] at hok
        rw [fillLoop_untouched mask reO imO i j B _ _ _ _ hok (Or.inl hB)]
        have hupd : upd3 h1 i j (addRow (h1 i j) cr ci) i j = addRow (h1 i j) cr ci := by
          simp [upd3]
        rw [hupd]
        rw [fillLoop_untouched mask reO imO i j A h n h1 n1 hA' (Or.inl hA)]
        rw [colA_eq_colD _ _ _ hcr, colA_eq_colD _ _ _ hci, hn1]

theorem mem_cellOrder (nc i j : ℕ) :
    (i, j) ∈ cellOrder nc ↔ i < nc ∧ j < nc := by
  unfold cellOrder
  rw [List.mem_flatten]
  constructor
  · rintro ⟨l, hl, hmem⟩
    rcases List.mem_map.mp hl with ⟨j', hj', rfl⟩
    rw [List.mem_range] at hj'
    rcases List.mem_map.mp hmem with ⟨i', hi', heq⟩
    rw [List.mem_range] at hi'
    cases heq
    exact ⟨hi', hj'⟩
  · rintro ⟨hi, hj⟩
    exact ⟨(List.range nc).map (fun i' => (i', j)),
      List.mem_map.mpr ⟨j, List.mem_range.mpr hj, rfl⟩,
      List.mem_map.mpr ⟨i, List.mem_range.mpr hi, rfl⟩⟩

theorem nodup_cellOrder (nc : ℕ) : (cellOrder nc).Nodup := by
  unfold cellOrder
  rw [List.nodup_flatten]
  constructor
  · intro l hl
    rcases List.mem_map.mp hl with ⟨j, _, rfl⟩
    exact (List.nodup_range nc).map (fun a b hab => by injection hab)
  · rw [List.pairwise_map]
    refine List.Pairwise.imp ?_ (List.nodup_range nc)
    intro a b hab x hxa hxb
    rcases List.mem_map.mp hxa with ⟨i1, _, rfl⟩
    rcases List.mem_map.mp hxb with ⟨i2, _, heq⟩
    cases heq
    exact hab rfl

theorem split_at_mem {α : Type} [DecidableEq α] (l : List α) (a : α) (h : a ∈ l) :
    l = l.takeWhile (fun x => x ≠ a) ++ a :: (l.dropWhile (fun x => x ≠ a)).tail := by
  induction l with
  | nil => cases h
  | cons b t ih =>
    by_cases hba : b = a
    · subst hba
      simp [List.takeWhile_cons, List.dropWhile_cons]
    · have h' : a ∈ t := by
        rcases List.mem_cons.mp h with rfl | h'
        · exact absurd rfl hba
        · exact h'
      simp only [List.takeWhile_cons, List.dropWhile_cons]
      have hb : (decide (b ≠ a)) = true := by simp [hba]
      simp only [hb, if_true, List.cons_append]
      exact congrArg (b :: ·) (ih h')

theorem not_mem_takeWhile_ne {α : Type} [DecidableEq α] (l : List α) (a : α) :
    a ∉ l.takeWhile (fun x => x ≠ a) := by
  intro hmem
  have := List.mem_takeWhile_imp hmem
  simp at this

/-- C4: in `hyb`'s off-diagonal path (mask recovered as `m`), the mask
is scanned column-major — the `k`-th true entry encountered (with
`truesBefore` counting the true cells strictly before it in that scan)
receives the `k`-th off-diagonal data column, unit-scaled, added onto
the existing cell content (the diagonal value when `i = j`, zero
otherwise); and every cell with a false mask entry off the diagonal is
identically zero over the whole mesh. -/
theorem hyb_offdiag_fill (file_re file_im : Table) (norb : ℕ) (spinpol : Bool)
    (reOff imOff : Table) (out : List String) (rf : Bool)
    (nc : ℕ) (hnc : nc = if spinpol then 2 * norb else norb)
    (m : List (List Bool)) (hm : maskUsed out norb spinpol = .ok m)
    (w : List ℚ) (h : List (List (List Cplx)))
    (hcall : hyb file_re file_im norb spinpol (some reOff) (some imOff) (some out) rf =
      .ok (.full w h)) :
    (∀ i j, i < nc → j < nc → maskGet m i j = false → i ≠ j →
      (h.getD i []).getD j [] = List.replicate (mesh file_re).length (0 : Cplx)) ∧
    (∀ i j, i < nc → j < nc → maskGet m i j = true →
      (h.getD i []).getD j [] =
        addRow (if i = j then (diagTable file_re file_im nc).getD i []
                else List.replicate (mesh file_re).length (0 : Cplx))
          (colD (scaleDrop reOff) (truesBefore m nc i j))
          (colD (scaleDrop imOff) (truesBefore m nc i j))) := by
  subst hnc
  simp only [hyb, hm] at hcall
  cases hfl : fillLoop m (scaleDrop reOff) (scaleDrop imOff)
      (cellOrder (if spinpol then 2 * norb else norb))
      (diagFill (diagTable file_re file_im (if spinpol then 2 * norb else norb))
        (if spinpol then 2 * norb else norb) (mesh file_re).length) 0 with
  | error e => rw [hfl] at hcall; simp at hcall
  | ok p =>
    obtain ⟨hf, nf⟩ := p
    rw [hfl] at hcall
    simp only [Except.ok.injEq, HybOut.full.injEq] at hcall
    obtain ⟨-, hh⟩ := hcall
    subst hh
    constructor
    · intro i j hi hj hfalse hne
      rw [materialize_getD _ _ i j hi hj]
      rw [fillLoop_untouched m (scaleDrop reOff) (scaleDrop imOff) i j _ _ _ _ _ hfl
        (Or.inr hfalse)]
      rw [diagFill_eq]
      have : ¬(i = j ∧ i < (if spinpol then 2 * norb else norb)) := by
        rintro ⟨rfl, -⟩; exact hne rfl
      simp [this]
    · intro i j hi hj htrue
      rw [materialize_getD _ _ i j hi hj]
      have hmem : (i, j) ∈ cellOrder (if spinpol then 2 * norb else norb) :=
        (mem_cellOrder _ i j).mpr ⟨hi, hj⟩
      have hsplit := split_at_mem (cellOrder (if spinpol then 2 * norb else norb)) (i, j) hmem
      have hA : (i, j) ∉ (cellOrder (if spinpol then 2 * norb else norb)).takeWhile
          (fun x => x ≠ (i, j)) := not_mem_takeWhile_ne _ _
      have hB : (i, j) ∉ ((cellOrder (if spinpol then 2 * norb else norb)).dropWhile
          (fun x => x ≠ (i, j))).tail := by
        have hnd := nodup_cellOrder (if spinpol then 2 * norb else norb)
        rw [hsplit] at hnd
        have := hnd.of_append_right
        exact (List.nodup_cons.mp this).1
      rw [hsplit] at hfl
      have := fillLoop_cell m (scaleDrop reOff) (scaleDrop imOff) i j _ _ _ _ _ _
        hA hB htrue hfl
      rw [this]
      rw [diagFill_eq]
      have harith : (0 : ℕ) + ((cellOrder (if spinpol then 2 * norb else norb)).takeWhile
          (fun x => x ≠ (i, j))).countP (fun c => maskGet m c.1 c.2) =
          truesBefore m (if spinpol then 2 * norb else norb) i j := by
        rw [Nat.zero_add]; rfl
      rw [harith]
      by_cases hij : i = j
      · subst hij
        simp [hi]
      · have : ¬(i = j ∧ i < (if spinpol then 2 * norb else norb)) := fun hc => hij hc.1
        simp [this, hij]

/-- A two-row off-diagonal hybridization table: column 0 is the mesh
index, two data columns follow. -/
def exOffT : Table := [[-5, 1/2, 1/4], [-4, 1, 2]]

/-- C4 witness: `norb = 1`, spin-polarized, with the `2×2`
antidiagonal mask recovered from `exOutNoSpin`. -/
theorem hyb_offdiag_fill_witness :
    ∃ w h,
      hyb exT exT 1 true (some exOffT) (some exOffT) (some exOutNoSpin) false =
        .ok (.full w h) ∧
      maskUsed exOutNoSpin 1 true = .ok [[false, true], [true, false]] ∧
      ((∀ i j, i < 2 → j < 2 → maskGet [[false, true], [true, false]] i j = false → i ≠ j →
          (h.getD i []).getD j [] = List.replicate (mesh exT).length (0 : Cplx)) ∧
       (∀ i j, i < 2 → j < 2 → maskGet [[false, true], [true, false]] i j = true →
          (h.getD i []).getD j [] =
            addRow (if i = j then (diagTable exT exT 2).getD i []
                    else List.replicate (mesh exT).length (0 : Cplx))
              (colD (scaleDrop exOffT) (truesBefore [[false, true], [true, false]] 2 i j))
              (colD (scaleDrop exOffT) (truesBefore [[false, true], [true, false]] 2 i j)))) :=
  ⟨_, _, rfl, by decide,
    hyb_offdiag_fill exT exT 1 true exOffT exOffT exOutNoSpin false 2 rfl
      [[false, true], [true, false]] (by decide) _ _ rfl⟩

theorem colA_eq_some (s : Table) (k : ℕ) (hk : ∀ r ∈ s, k < r.length) :
    colA s k = some (colD s k) := by
  have hc : (s.all fun r => decide (k < r.length)) = true :=
    List.all_eq_true.mpr (fun r hr => by simpa using hk r hr)
  unfold colA
  rw [if_pos hc]

theorem fillLoop_success (mask : List (List Bool)) (reO imO : Table) :
    ∀ (cs : List (ℕ × ℕ)) (h : ℕ → ℕ → List Cplx) (n : ℕ),
      (∀ r ∈ reO, n + cs.countP (fun c => maskGet mask c.1 c.2) ≤ r.length) →
      (∀ r ∈ imO, n + cs.countP (fun c => maskGet mask c.1 c.2) ≤ r.length) →
      ∃ h', fillLoop mask reO imO cs h n =
        .ok (h', n + cs.countP (fun c => maskGet mask c.1 c.2)) := by
  intro cs
  induction cs with
  | nil => intro h n _ _; exact ⟨h, by simp [fillLoop]⟩
  | cons c t ih =>
    intro h n hre him
    by_cases hm : maskGet mask c.1 c.2 = true
    · have hcnt : (c :: t).countP (fun c => maskGet mask c.1 c.2) =
          t.countP (fun c => maskGet mask c.1 c.2) + 1 := by
        rw [List.countP_cons]; simp [hm]
      have hcr : colA reO n = some (colD reO n) :=
        colA_eq_some reO n (fun r hr => by have := hre r hr; omega)
      have hci : colA imO n = some (colD imO n) :=
        colA_eq_some imO n (fun r hr => by have := him r hr; omega)
      obtain ⟨h', hok⟩ := ih
        (upd3 h c.1 c.2 (addRow (h c.1 c.2) (colD reO n) (colD imO n))) (n + 1)
        (fun r hr => by have := hre r hr; rw [hcnt] at this; omega)
        (fun r hr => by have := him r hr; rw [hcnt] at this; omega)
      refine ⟨h', ?_⟩
      simp only [fillLoop]
      rw [if_pos hm]
      simp only [hcr, hci]
      rw [hok, hcnt]
      rw [show n + 1 + t.countP (fun c => maskGet mask c.1 c.2) =
        n + (t.countP (fun c => maskGet mask c.1 c.2) + 1) from by omega]
    · have hcnt : (c :: t).countP (fun c => maskGet mask c.1 c.2) =
          t.countP (fun c => maskGet mask c.1 c.2) := by
        rw [List.countP_cons]; simp [hm]
      obtain ⟨h', hok⟩ := ih h n
        (fun r hr => by have := hre r hr; rw [hcnt] at this; omega)
        (fun r hr => by have := him r hr; rw [hcnt] at this; omega)
      refine ⟨h', ?_⟩
      simp only [fillLoop]
      rw [if_neg hm, hok, hcnt]

theorem fillLoop_cols_agree (mask : List (List Bool)) (reO imO reO' imO' : Table) :
    ∀ (cs : List (ℕ × ℕ)) (h : ℕ → ℕ → List Cplx) (n : ℕ),
      (∀ k, n ≤ k → k < n + cs.countP (fun c => maskGet mask c.1 c.2) →
        colA reO k = colA reO' k ∧ colA imO k = colA imO' k) →
      fillLoop mask reO imO cs h n = fillLoop mask reO' imO' cs h n := by
  intro cs
  induction cs with
  | nil => intro h n _; simp [fillLoop]
  | cons c t ih =>
    intro h n hag
    simp only [fillLoop]
    by_cases hm : maskGet mask c.1 c.2 = true
    · rw [if_pos hm, if_pos hm]
      have hcnt : (c :: t).countP (fun c => maskGet mask c.1 c.2) =
          t.countP (fun c => maskGet mask c.1 c.2) + 1 := by
        rw [List.countP_cons]; simp [hm]
      have hn : colA reO n = colA reO' n ∧ colA imO n = colA imO' n := by
        refine hag n (le_refl n) ?_
        rw [hcnt]; omega
      rw [← hn.1, ← hn.2]
      cases hcr : colA reO n with
      | none => cases hci : colA imO n <;> rfl
      | some cr =>
        cases hci : colA imO n with
        | none => rfl
        | some ci =>
          exact ih _ (n + 1) (fun k hk1 hk2 => hag k (by omega) (by rw [hcnt]; omega))
    · rw [if_neg hm, if_neg hm]
      have hcnt : (c :: t).countP (fun c => maskGet mask c.1 c.2) =
          t.countP (fun c => maskGet mask c.1 c.2) := by
        rw [List.countP_cons]; simp [hm]
      exact ih _ n (fun k hk1 hk2 => hag k hk1 (by rw [hcnt]; omega))

/-- Truncation of a table to its first `c` columns. -/
def truncCols (t : Table) (c : ℕ) : Table := t.map (fun r => r.take c)

theorem scaleDrop_truncCols (t : Table) (k : ℕ) :
    scaleDrop (truncCols t (1 + k)) = truncCols (scaleDrop t) k := by
  unfold scaleDrop truncCols
  rw [List.map_map, List.map_map]
  apply List.map_congr_left
  intro r _
  show ((r.take (1 + k)).drop 1).map (fun x => eV * x) = ((r.drop 1).map (fun x => eV * x)).take k
  rw [← List.take_drop, List.map_take]

theorem colA_truncCols (s : Table) (c k : ℕ) (hk : k < c)
    (hlen : ∀ r ∈ s, c ≤ r.length) :
    colA (truncCols s c) k = colA s k := by
  have h1 : colA s k = some (colD s k) :=
    colA_eq_some s k (fun r hr => by have := hlen r hr; omega)
  have h2 : colA (truncCols s c) k = some (colD (truncCols s c) k) := by
    apply colA_eq_some
    intro r hr
    rcases List.mem_map.mp hr with ⟨r0, hr0, rfl⟩
    have := hlen r0 hr0
    simp only [List.length_take]
    omega
  rw [h1, h2]
  have h3 : colD (truncCols s c) k = colD s k := by
    unfold colD truncCols
    rw [List.map_map]
    apply List.map_congr_left
    intro r _
    show (r.take c).getD k 0 = r.getD k 0
    exact getD_take_of_lt _ _ _ _ hk
  rw [h3]

/-- C10: the fill loop consumes exactly as many off-diagonal data
columns as the (possibly truncated) mask has true entries; when the
off-diagonal tables have at least that many data columns every column
access is in bounds — the loop (and hence `hyb`) succeeds, so the
out-of-bounds failure is unreachable — and any further columns are
ignored: truncating the off-diagonal files to the mesh column plus
`maskTrues` data columns leaves `hyb`'s result unchanged. -/
theorem hyb_offdiag_consumption (file_re file_im : Table) (norb : ℕ) (spinpol : Bool)
    (reOff imOff : Table) (out : List String) (rf : Bool)
    (nc : ℕ) (hnc : nc = if spinpol then 2 * norb else norb)
    (m : List (List Bool)) (hm : maskUsed out norb spinpol = .ok m)
    (hre : ∀ r ∈ scaleDrop reOff, maskTrues m nc ≤ r.length)
    (him : ∀ r ∈ scaleDrop imOff, maskTrues m nc ≤ r.length) :
    (∃ hf, fillLoop m (scaleDrop reOff) (scaleDrop imOff) (cellOrder nc)
        (diagFill (diagTable file_re file_im nc) nc (mesh file_re).length) 0 =
        .ok (hf, maskTrues m nc) ∧
      hyb file_re file_im norb spinpol (some reOff) (some imOff) (some out) rf =
        .ok (.full (mesh file_re) (materialize nc hf))) ∧
    hyb file_re file_im norb spinpol (some (truncCols reOff (1 + maskTrues m nc)))
        (some (truncCols imOff (1 + maskTrues m nc))) (some out) rf =
      hyb file_re file_im norb spinpol (some reOff) (some imOff) (some out) rf := by
  obtain ⟨hf, hfl⟩ := fillLoop_success m (scaleDrop reOff) (scaleDrop imOff)
    (cellOrder nc)
    (diagFill (diagTable file_re file_im nc) nc (mesh file_re).length) 0
    (fun r hr => by have := hre r hr; simpa [maskTrues] using this)
    (fun r hr => by have := him r hr; simpa [maskTrues] using this)
  have hfl' : fillLoop m (scaleDrop reOff) (scaleDrop imOff) (cellOrder nc)
      (diagFill (diagTable file_re file_im nc) nc (mesh file_re).length) 0 =
      .ok (hf, maskTrues m nc) := by
    simpa [maskTrues] using hfl
  have htr : fillLoop m (truncCols (scaleDrop reOff) (maskTrues m nc))
      (truncCols (scaleDrop imOff) (maskTrues m nc)) (cellOrder nc)
      (diagFill (diagTable file_re file_im nc) nc (mesh file_re).length) 0 =
      fillLoop m (scaleDrop reOff) (scaleDrop imOff) (cellOrder nc)
      (diagFill (diagTable file_re file_im nc) nc (mesh file_re).length) 0 := by
    apply fillLoop_cols_agree
    intro k hk0 hkb
    have hk : k < maskTrues m nc := by simpa [maskTrues] using hkb
    exact ⟨colA_truncCols _ _ _ hk hre, colA_truncCols _ _ _ hk him⟩
  refine ⟨⟨hf, hfl', ?_⟩, ?_⟩
  · simp only [hyb, hm]
    rw [← hnc]
    simp only [hfl']
  · simp only [hyb, hm]
    rw [← hnc]
    rw [scaleDrop_truncCols, scaleDrop_truncCols, htr]

/-- C10 witness: two true mask entries, two data columns — the fill
succeeds consuming both, and truncating to exactly those columns
changes nothing. -/
theorem hyb_offdiag_consumption_witness :
    (∀ r ∈ scaleDrop exOffT, maskTrues [[false, true], [true, false]] 2 ≤ r.length) ∧
    ((∃ hf, fillLoop [[false, true], [true, false]] (scaleDrop exOffT) (scaleDrop exOffT)
        (cellOrder 2) (diagFill (diagTable exT exT 2) 2 (mesh exT).length) 0 =
        .ok (hf, maskTrues [[false, true], [true, false]] 2) ∧
      hyb exT exT 1 true (some exOffT) (some exOffT) (some exOutNoSpin) false =
        .ok (.full (mesh exT) (materialize 2 hf))) ∧
    hyb exT exT 1 true
        (some (truncCols exOffT (1 + maskTrues [[false, true], [true, false]] 2)))
        (some (truncCols exOffT (1 + maskTrues [[false, true], [true, false]] 2)))
        (some exOutNoSpin) false =
      hyb exT exT 1 true (some exOffT) (some exOffT) (some exOutNoSpin) false) :=
  ⟨by decide,
    hyb_offdiag_consumption exT exT 1 true exOffT exOffT exOutNoSpin false 2 rfl
      [[false, true], [true, false]] (by decide) (by decide) (by decide)⟩
